import Mathlib

/-!
Verification of the mitraxterm connection-manager scaffold.

Shallow embedding of `src/main.py` (a Textual TUI app).  The app state the
claims concern is:

* `self.connections : dict` mapping tree-node ids to connection records
  (themselves Python dicts with string keys and string values, built by
  `ConnectionModal.on_button_pressed`);
* the tab strip (`Tabs` widget) together with `self.tab_counter`;
* the sidebar tree selection (`tree.cursor_node`).

Python dicts are embedded as association lists in insertion order with
unique keys: assignment `d[k] = v` replaces in place or appends
(`dictSet`), `del d[k]` removes the binding or raises `KeyError`
(`dictDel`, returning `none` for the exception), `d.get(k)` / `d.get(k, dflt)`
are `dictLookup` / `dictLookup … |>.getD dflt`.
-/

namespace Mitraxterm

/-- Embeds `d.get(k)` on a Python dict, the dict being an association list in insertion
order: the value of the first (and, with unique keys, only) binding of `k`. -/
def dictLookup {α β : Type} [DecidableEq α] : List (α × β) → α → Option β
  | [], _ => none
  | (k, v) :: rest, k1 => if k1 = k then some v else dictLookup rest k1

/-- Embeds `d[k] = v` on a Python dict: replace the binding of `k` in place if `k`
is present, else append the new binding at the end (insertion order). -/
def dictSet {α β : Type} [DecidableEq α] : List (α × β) → α → β → List (α × β)
  | [], k, v => [(k, v)]
  | (k1, v1) :: rest, k, v =>
      if k = k1 then (k, v) :: rest else (k1, v1) :: dictSet rest k v

/-- Embeds `del d[k]` on a Python dict: remove the binding of `k`; `none` models the
`KeyError` raised when `k` is absent. -/
def dictDel {α β : Type} [DecidableEq α] : List (α × β) → α → Option (List (α × β))
  | [], _ => none
  | (k1, v1) :: rest, k =>
      if k = k1 then some rest else (dictDel rest k).map (fun t => (k1, v1) :: t)

/-- Embeds `list(d.keys())` in insertion order. -/
def dictKeys {α β : Type} : List (α × β) → List α :=
  List.map Prod.fst

@[simp] theorem dictLookup_nil {α β : Type} [DecidableEq α] (k : α) :
    dictLookup ([] : List (α × β)) k = none := rfl

@[simp] theorem dictLookup_cons {α β : Type} [DecidableEq α]
    (k1 : α) (v1 : β) (rest : List (α × β)) (k : α) :
    dictLookup ((k1, v1) :: rest) k =
      if k = k1 then some v1 else dictLookup rest k := rfl

@[simp] theorem dictKeys_nil {α β : Type} : dictKeys ([] : List (α × β)) = [] := rfl

@[simp] theorem dictKeys_cons {α β : Type} (k : α) (v : β) (rest : List (α × β)) :
    dictKeys ((k, v) :: rest) = k :: dictKeys rest := rfl

theorem dictLookup_set_self {α β : Type} [DecidableEq α]
    (d : List (α × β)) (k : α) (v : β) :
    dictLookup (dictSet d k v) k = some v := by
  induction d with
  | nil => simp [dictSet]
  | cons p rest ih =>
      obtain ⟨k1, v1⟩ := p
      by_cases h : k = k1 <;> simp [dictSet, h, ih]

theorem dictLookup_set_other {α β : Type} [DecidableEq α]
    (d : List (α × β)) (k j : α) (v : β) (hne : j ≠ k) :
    dictLookup (dictSet d k v) j = dictLookup d j := by
  induction d with
  | nil => simp [dictSet, hne]
  | cons p rest ih =>
      obtain ⟨k1, v1⟩ := p
      by_cases h : k = k1
      · subst h
        simp [dictSet, hne]
      · by_cases h2 : j = k1 <;> simp [dictSet, h, h2, ih]

theorem dictLookup_eq_none_of_not_mem {α β : Type} [DecidableEq α]
    (d : List (α × β)) (k : α) (hk : k ∉ dictKeys d) :
    dictLookup d k = none := by
  induction d with
  | nil => rfl
  | cons p rest ih =>
      obtain ⟨k1, v1⟩ := p
      simp only [dictKeys_cons, List.mem_cons, not_or] at hk
      simp [hk.1, ih hk.2]

@[simp] theorem dictDel_nil {α β : Type} [DecidableEq α] (k : α) :
    dictDel ([] : List (α × β)) k = none := rfl

theorem dictDel_cons {α β : Type} [DecidableEq α]
    (k1 : α) (v1 : β) (rest : List (α × β)) (k : α) :
    dictDel ((k1, v1) :: rest) k =
      if k = k1 then some rest
      else (dictDel rest k).map (fun t => (k1, v1) :: t) := rfl

theorem dictLookup_del_self {α β : Type} [DecidableEq α]
    (d d1 : List (α × β)) (k : α)
    (hdel : dictDel d k = some d1) (hnd : (dictKeys d).Nodup) :
    dictLookup d1 k = none := by
  induction d generalizing d1 with
  | nil => simp at hdel
  | cons p rest ih =>
      obtain ⟨k1, v1⟩ := p
      simp only [dictKeys_cons, List.nodup_cons] at hnd
      by_cases h : k = k1
      · rw [dictDel_cons, if_pos h] at hdel
        injection hdel with hdel
        subst hdel
        subst h
        exact dictLookup_eq_none_of_not_mem _ _ hnd.1
      · rw [dictDel_cons, if_neg h, Option.map_eq_some'] at hdel
        obtain ⟨t, ht, rfl⟩ := hdel
        simp only [dictLookup_cons, if_neg h]
        exact ih t ht hnd.2

theorem dictLookup_del_other {α β : Type} [DecidableEq α]
    (d d1 : List (α × β)) (k j : α)
    (hdel : dictDel d k = some d1) (hne : j ≠ k) :
    dictLookup d1 j = dictLookup d j := by
  induction d generalizing d1 with
  | nil => simp at hdel
  | cons p rest ih =>
      obtain ⟨k1, v1⟩ := p
      by_cases h : k = k1
      · rw [dictDel_cons, if_pos h] at hdel
        injection hdel with hdel
        subst hdel
        rw [dictLookup_cons, if_neg (h ▸ hne)]
      · rw [dictDel_cons, if_neg h, Option.map_eq_some'] at hdel
        obtain ⟨t, ht, rfl⟩ := hdel
        by_cases h2 : j = k1 <;> simp [h2, ih t ht]

theorem dictKeys_set_mem {α β : Type} [DecidableEq α]
    (d : List (α × β)) (k : α) (v : β) (hk : k ∈ dictKeys d) :
    dictKeys (dictSet d k v) = dictKeys d := by
  induction d with
  | nil => simp at hk
  | cons p rest ih =>
      obtain ⟨k1, v1⟩ := p
      by_cases h : k = k1
      · subst h
        simp [dictSet]
      · simp only [dictKeys_cons, List.mem_cons] at hk
        rcases hk with hk | hk
        · exact absurd hk h
        · simp [dictSet, h, ih hk]

theorem dictSet_nil {α β : Type} [DecidableEq α] (k : α) (v : β) :
    dictSet ([] : List (α × β)) k v = [(k, v)] := rfl

theorem dictSet_cons {α β : Type} [DecidableEq α]
    (k1 : α) (v1 : β) (rest : List (α × β)) (k : α) (v : β) :
    dictSet ((k1, v1) :: rest) k v =
      if k = k1 then (k, v) :: rest else (k1, v1) :: dictSet rest k v := rfl

theorem mem_dictSet {α β : Type} [DecidableEq α]
    (d : List (α × β)) (k : α) (v : β) (p : α × β) (hp : p ∈ dictSet d k v) :
    p = (k, v) ∨ p ∈ d := by
  induction d with
  | nil =>
      rw [dictSet_nil] at hp
      exact Or.inl (List.mem_singleton.mp hp)
  | cons q rest ih =>
      obtain ⟨k1, v1⟩ := q
      by_cases h : k = k1
      · rw [dictSet_cons, if_pos h] at hp
        rcases List.mem_cons.mp hp with hp1 | hp1
        · exact Or.inl hp1
        · exact Or.inr (List.mem_cons_of_mem _ hp1)
      · rw [dictSet_cons, if_neg h] at hp
        rcases List.mem_cons.mp hp with hp1 | hp1
        · exact Or.inr (List.mem_cons.mpr (Or.inl hp1))
        · rcases ih hp1 with h1 | h1
          · exact Or.inl h1
          · exact Or.inr (List.mem_cons_of_mem _ h1)

theorem mem_dictDel {α β : Type} [DecidableEq α]
    (d d1 : List (α × β)) (k : α) (hdel : dictDel d k = some d1)
    (p : α × β) (hp : p ∈ d1) : p ∈ d := by
  induction d generalizing d1 with
  | nil => simp at hdel
  | cons q rest ih =>
      obtain ⟨k1, v1⟩ := q
      by_cases h : k = k1
      · rw [dictDel_cons, if_pos h] at hdel
        injection hdel with hdel
        subst hdel
        exact List.mem_cons_of_mem _ hp
      · rw [dictDel_cons, if_neg h, Option.map_eq_some'] at hdel
        obtain ⟨t, ht, rfl⟩ := hdel
        rcases List.mem_cons.mp hp with hp1 | hp1
        · exact List.mem_cons.mpr (Or.inl hp1)
        · exact List.mem_cons_of_mem _ (ih t ht hp1)

theorem dictLookup_isSome_of_mem {α β : Type} [DecidableEq α]
    (d : List (α × β)) (k : α) (hk : k ∈ dictKeys d) :
    (dictLookup d k).isSome = true := by
  induction d with
  | nil => simp at hk
  | cons p rest ih =>
      obtain ⟨k1, v1⟩ := p
      by_cases h : k = k1
      · simp [h]
      · simp only [dictKeys_cons, List.mem_cons] at hk
        rcases hk with hk | hk
        · exact absurd hk h
        · simp [h, ih hk]

theorem dictDel_isSome_of_mem {α β : Type} [DecidableEq α]
    (d : List (α × β)) (k : α) (hk : k ∈ dictKeys d) :
    (dictDel d k).isSome = true := by
  induction d with
  | nil => simp at hk
  | cons p rest ih =>
      obtain ⟨k1, v1⟩ := p
      by_cases h : k = k1
      · simp [dictDel, h]
      · simp only [dictKeys_cons, List.mem_cons] at hk
        rcases hk with hk | hk
        · exact absurd hk h
        · simp only [dictDel, if_neg h]
          have := ih hk
          cases hdd : dictDel rest k with
          | none => rw [hdd] at this; simp at this
          | some t => simp

theorem mem_dictKeys_set {α β : Type} [DecidableEq α]
    (d : List (α × β)) (k : α) (v : β) (j : α) (hj : j ∈ dictKeys (dictSet d k v)) :
    j = k ∨ j ∈ dictKeys d := by
  simp only [dictKeys, List.mem_map] at hj
  obtain ⟨p, hp, rfl⟩ := hj
  rcases mem_dictSet d k v p hp with h1 | h1
  · subst h1
    exact Or.inl rfl
  · exact Or.inr (List.mem_map_of_mem _ h1)

theorem nodup_dictKeys_set {α β : Type} [DecidableEq α]
    (d : List (α × β)) (k : α) (v : β) (hnd : (dictKeys d).Nodup) :
    (dictKeys (dictSet d k v)).Nodup := by
  induction d with
  | nil => simp [dictSet]
  | cons p rest ih =>
      obtain ⟨k1, v1⟩ := p
      simp only [dictKeys_cons, List.nodup_cons] at hnd
      by_cases h : k = k1
      · rw [dictSet_cons, if_pos h]
        subst h
        exact List.nodup_cons.mpr hnd
      · rw [dictSet_cons, if_neg h]
        refine List.nodup_cons.mpr ⟨?_, ih hnd.2⟩
        intro hmem
        rcases mem_dictKeys_set rest k v k1 hmem with h1 | h1
        · exact h h1.symm
        · exact hnd.1 h1

theorem dictKeys_del_sublist {α β : Type} [DecidableEq α]
    (d d1 : List (α × β)) (k : α) (hdel : dictDel d k = some d1) :
    List.Sublist (dictKeys d1) (dictKeys d) := by
  induction d generalizing d1 with
  | nil => simp at hdel
  | cons p rest ih =>
      obtain ⟨k1, v1⟩ := p
      by_cases h : k = k1
      · rw [dictDel_cons, if_pos h] at hdel
        injection hdel with hdel
        subst hdel
        exact List.sublist_cons_self k1 (dictKeys rest)
      · rw [dictDel_cons, if_neg h, Option.map_eq_some'] at hdel
        obtain ⟨t, ht, rfl⟩ := hdel
        exact List.Sublist.cons₂ k1 (ih t ht)

theorem nodup_dictKeys_del {α β : Type} [DecidableEq α]
    (d d1 : List (α × β)) (k : α) (hdel : dictDel d k = some d1)
    (hnd : (dictKeys d).Nodup) : (dictKeys d1).Nodup :=
  (dictKeys_del_sublist d d1 k hdel).nodup hnd

/-! ## The connection data model

`ConnectionModal.on_button_pressed` ("save") builds
`{"host": host, "port": port, "label": label, "group": group, "password": password}`
from the five `Input` widgets and dismisses the modal with it.  All five
values are raw input strings; no parsing or validation happens anywhere.
`PyxTerm.__init__` sets `self.connections = {}`, a dict keyed by tree-node
ids (embedded as `Nat`). -/

/-- A connection record: a Python dict from field name to input string. -/
abbrev ConnRecord := List (String × String)

/-- The `self.connections` dict: tree-node id ↦ connection record. -/
abbrev ConnStore := List (Nat × ConnRecord)

/-- The dict a saved `ConnectionModal` dismisses with
(`ConnectionModal.on_button_pressed`, save branch). -/
def mkConnDict (host port label group password : String) : ConnRecord :=
  [("host", host), ("port", port), ("label", label),
   ("group", group), ("password", password)]

/-- The sequence of field names of a modal-produced record. -/
def connFieldNames : List String :=
  ["host", "port", "label", "group", "password"]

theorem dictKeys_mkConnDict (host port label group password : String) :
    dictKeys (mkConnDict host port label group password) = connFieldNames := rfl

/-- The store-level mutations of `self.connections` performed by
`PyxTerm.on_select_changed`: `handle_add_connection` and
`handle_edit_connection` assign `self.connections[id] = result`,
`handle_remove_connection` runs `del self.connections[id]`.  Each carries
the five strings of the modal inputs (add/edit) or just the id (remove). -/
inductive ConnOp : Type
  | add (freshId : Nat) (host port label group password : String)
  | edit (id : Nat) (host port label group password : String)
  | remove (id : Nat)

/-- One store mutation; `none` models the `KeyError` that
`del self.connections[id]` raises when `id` is absent. -/
def applyConnOp (s : ConnStore) : ConnOp → Option ConnStore
  | .add i host port label group password =>
      some (dictSet s i (mkConnDict host port label group password))
  | .edit i host port label group password =>
      some (dictSet s i (mkConnDict host port label group password))
  | .remove i => dictDel s i

/-- Run a sequence of store mutations, stopping at the first `KeyError`. -/
def applyConnOps : ConnStore → List ConnOp → Option ConnStore
  | s, [] => some s
  | s, op :: ops =>
      match applyConnOp s op with
      | some s1 => applyConnOps s1 ops
      | none => none

/-- The effect a single operation has on the binding of identifier `i`:
`some (some rec)` writes `rec`, `some none` removes, `none` leaves alone. -/
def connOpEffect : ConnOp → Nat → Option (Option ConnRecord)
  | .add j host port label group password, i =>
      if i = j then some (some (mkConnDict host port label group password)) else none
  | .edit j host port label group password, i =>
      if i = j then some (some (mkConnDict host port label group password)) else none
  | .remove j, i => if i = j then some none else none

/-- The last mutation of identifier `i` in an operation sequence:
`some (some rec)` if the last one wrote `rec`, `some none` if it removed
`i`, `none` if no operation in the sequence mutated `i`. -/
def lastWrite : List ConnOp → Nat → Option (Option ConnRecord)
  | [], _ => none
  | op :: ops, i =>
      match lastWrite ops i with
      | some r => some r
      | none => connOpEffect op i

theorem nodup_keys_applyConnOp (s s1 : ConnStore) (op : ConnOp)
    (h : applyConnOp s op = some s1) (hnd : (dictKeys s).Nodup) :
    (dictKeys s1).Nodup := by
  cases op with
  | add i host port label group password =>
      injection h with h
      subst h
      exact nodup_dictKeys_set s i _ hnd
  | edit i host port label group password =>
      injection h with h
      subst h
      exact nodup_dictKeys_set s i _ hnd
  | remove i => exact nodup_dictKeys_del s s1 i h hnd

theorem lookup_applyConnOps (ops : List ConnOp) (s s1 : ConnStore) (i : Nat)
    (h : applyConnOps s ops = some s1) (hnd : (dictKeys s).Nodup) :
    dictLookup s1 i = (lastWrite ops i).getD (dictLookup s i) := by
  induction ops generalizing s with
  | nil =>
      injection h with h
      subst h
      rfl
  | cons op ops ih =>
      simp only [applyConnOps] at h
      cases hop : applyConnOp s op with
      | none => rw [hop] at h; exact absurd h (by simp)
      | some s2 =>
          rw [hop] at h
          have hnd2 := nodup_keys_applyConnOp s s2 op hop hnd
          have ihh := ih s2 h hnd2
          simp only [lastWrite]
          cases he : lastWrite ops i with
          | some r => rw [he] at ihh; simpa using ihh
          | none =>
              rw [he] at ihh
              simp only [Option.getD_none] at ihh
              rw [ihh]
              cases op with
              | add j host port label group password =>
                  injection hop with hop
                  subst hop
                  by_cases hij : i = j
                  · subst hij
                    simp [connOpEffect, dictLookup_set_self]
                  · simp [connOpEffect, hij, dictLookup_set_other s j i _ hij]
              | edit j host port label group password =>
                  injection hop with hop
                  subst hop
                  by_cases hij : i = j
                  · subst hij
                    simp [connOpEffect, dictLookup_set_self]
                  · simp [connOpEffect, hij, dictLookup_set_other s j i _ hij]
              | remove j =>
                  by_cases hij : i = j
                  · subst hij
                    simp [connOpEffect, dictLookup_del_self s s2 i hop hnd]
                  · simp [connOpEffect, hij, dictLookup_del_other s s2 j i hop hij]

/-! ## The menu actions of `PyxTerm.on_select_changed`

The handler reads `tree.cursor_node` (either `None`, the tree root, or a
connection node, embedded as `Option TreeCursor`), then branches on the
selected menu entry.  The "edit"/"remove" branches guard on
`selected_node and selected_node != tree.root`; otherwise they only call
`self.notify("No connection selected")`.  The modal callbacks
(`handle_add_connection`, `handle_edit_connection`,
`handle_remove_connection`) receive the dismiss value of the modal: `None` on
cancel (falsy), the five-field dict on save (truthy, it has five keys),
`True`/`False` from the confirm modal. -/

/-- The `tree.cursor_node` value when it is not `None`: the root or a connection node. -/
inductive TreeCursor : Type
  | root
  | node (i : Nat)

/-- Embeds `handle_add_connection` (the `push_screen` callback of the "add"
branch): on a truthy result store it under the id of the fresh tree node.
Python truthiness of the dict is `≠ {}`. -/
def handle_add_connection (connections : ConnStore) (freshId : Nat)
    (result : Option ConnRecord) : ConnStore :=
  match result with
  | some r => if r.isEmpty then connections else dictSet connections freshId r
  | none => connections

/-- Embeds `handle_edit_connection`: on a truthy result re-assign
`self.connections[selected_node.id] = result` (and update the node label). -/
def handle_edit_connection (connections : ConnStore) (i : Nat)
    (result : Option ConnRecord) : ConnStore :=
  match result with
  | some r => if r.isEmpty then connections else dictSet connections i r
  | none => connections

/-- Embeds `handle_remove_connection`: on a confirmed result run
`del self.connections[selected_node.id]`; `none` is the `KeyError`. -/
def handle_remove_connection (connections : ConnStore) (i : Nat)
    (result : Bool) : Option ConnStore :=
  if result then dictDel connections i else some connections

/-- What the "edit" menu branch does before any modal interaction.
`reportNotFound` is the behaviour §4.1 of the spec asks for on an unknown
identifier; it is part of the observable-outcome type so the spec claim can
be stated, and the code (which calls `self.connections.get(selected_node.id, {})`
and always opens the modal) never produces it. -/
inductive EditDispatch : Type
  | openModal (prefill : ConnRecord)
  | notifyNoSelection
  | reportNotFound

/-- The "edit" branch of `PyxTerm.on_select_changed` up to pushing the
modal: with a connection node selected it opens the modal prefilled with
`self.connections.get(selected_node.id, {})`; otherwise it only notifies. -/
def editDispatch (connections : ConnStore) (cursor : Option TreeCursor) :
    EditDispatch :=
  match cursor with
  | some (TreeCursor.node i) =>
      EditDispatch.openModal ((dictLookup connections i).getD [])
  | some TreeCursor.root => EditDispatch.notifyNoSelection
  | none => EditDispatch.notifyNoSelection

/-- The complete effect of the "edit" menu action on `self.connections`:
dispatch on the cursor, then the modal callback. -/
def editAction (connections : ConnStore) (cursor : Option TreeCursor)
    (result : Option ConnRecord) : ConnStore :=
  match cursor with
  | some (TreeCursor.node i) => handle_edit_connection connections i result
  | some TreeCursor.root => connections
  | none => connections

/-- The complete effect of the "remove" menu action on `self.connections`. -/
def removeAction (connections : ConnStore) (cursor : Option TreeCursor)
    (confirm : Bool) : Option ConnStore :=
  match cursor with
  | some (TreeCursor.node i) => handle_remove_connection connections i confirm
  | some TreeCursor.root => some connections
  | none => some connections

theorem connFieldNames_applyConnOps (ops : List ConnOp) (s s1 : ConnStore)
    (hs : ∀ p ∈ s, dictKeys p.2 = connFieldNames)
    (h : applyConnOps s ops = some s1) :
    ∀ p ∈ s1, dictKeys p.2 = connFieldNames := by
  induction ops generalizing s with
  | nil =>
      injection h with h
      subst h
      exact hs
  | cons op ops ih =>
      simp only [applyConnOps] at h
      cases hop : applyConnOp s op with
      | none => rw [hop] at h; exact absurd h (by simp)
      | some s2 =>
          rw [hop] at h
          refine ih s2 ?_ h
          intro p hp
          cases op with
          | add j host port label group password =>
              injection hop with hop
              subst hop
              rcases mem_dictSet s j _ p hp with h1 | h1
              · subst h1
                rfl
              · exact hs p h1
          | edit j host port label group password =>
              injection hop with hop
              subst hop
              rcases mem_dictSet s j _ p hp with h1 | h1
              · subst h1
                rfl
              · exact hs p h1
          | remove j => exact hs p (mem_dictDel s s2 j hop p hp)

/-! ## Tabs: `action_new_tab`, `action_close_tab`

`INITIAL_TABS = ["⌂"]`; `__init__` sets `tab_counter = len(INITIAL_TABS) + 1`.
`action_new_tab` adds a tab named `f"tab-{self.tab_counter}"`, makes it
active and increments the counter.  `action_close_tab` removes the active
tab if `len(tabs.query("Tab")) > 1`, else only notifies. -/

/-- Decimal rendering of a non-negative int as Python formats it (used by the f-string
`f"tab-{self.tab_counter}"`): most-significant digit first. -/
def natDecimalRepr (n : Nat) : String :=
  if n = 0 then "0"
  else String.mk (((Nat.digits 10 n).map Nat.digitChar).reverse)

/-- Left inverse of `natDecimalRepr`, to establish injectivity. -/
def decimalDecode (s : String) : Nat :=
  Nat.ofDigits 10 ((s.data.map (fun c => c.toNat - 48)).reverse)

theorem digitChar_toNat (d : Nat) (hd : d < 10) :
    (Nat.digitChar d).toNat - 48 = d := by
  revert hd
  revert d
  decide

theorem decimalDecode_repr (n : Nat) : decimalDecode (natDecimalRepr n) = n := by
  by_cases h : n = 0
  · subst h
    decide
  · rw [natDecimalRepr, if_neg h, decimalDecode]
    have hdata : (String.mk (((Nat.digits 10 n).map Nat.digitChar).reverse)).data
        = ((Nat.digits 10 n).map Nat.digitChar).reverse := rfl
    rw [hdata, List.map_reverse, List.reverse_reverse, List.map_map]
    have hmap : (Nat.digits 10 n).map ((fun c => c.toNat - 48) ∘ Nat.digitChar)
        = (Nat.digits 10 n).map id := by
      refine List.map_congr_left ?_
      intro d hd
      exact digitChar_toNat d (Nat.digits_lt_base (by norm_num) hd)
    rw [hmap, List.map_id]
    exact Nat.ofDigits_digits 10 n

theorem natDecimalRepr_injective : Function.Injective natDecimalRepr :=
  Function.LeftInverse.injective decimalDecode_repr

theorem natDecimalRepr_ne_empty (n : Nat) : natDecimalRepr n ≠ "" := by
  by_cases h : n = 0
  · subst h
    decide
  · rw [natDecimalRepr, if_neg h]
    intro heq
    have hdata : (((Nat.digits 10 n).map Nat.digitChar).reverse) = ([] : List Char) :=
      congrArg String.data heq
    simp only [List.reverse_eq_nil_iff, List.map_eq_nil_iff] at hdata
    exact Nat.digits_ne_nil_iff_ne_zero.mpr h hdata

/-- The id string built by `action_new_tab`, the f-string interpolating the counter. -/
def tabId (n : Nat) : String := "tab-" ++ natDecimalRepr n

theorem tabId_injective : Function.Injective tabId := by
  intro m n h
  apply natDecimalRepr_injective
  have h2 : ("tab-" ++ natDecimalRepr m).data = ("tab-" ++ natDecimalRepr n).data :=
    congrArg String.data h
  rw [String.data_append, String.data_append] at h2
  exact String.ext (List.append_cancel_left h2)

/-- Embeds `INITIAL_TABS`, the single home tab. -/
def INITIAL_TABS : List String := ["⌂"]

/-- The two tab keybindings (`ctrl+n`, `ctrl+x`). -/
inductive TabAction : Type
  | newTab
  | closeTab

/-- The tab strip plus `self.tab_counter`. -/
structure TabsState : Type where
  tabs : List String
  active : String
  counter : Nat

/-- Initial state per `PyxTerm.__init__` and `compose`: one home tab (active), counter
`len(INITIAL_TABS) + 1 = 2`. -/
def initTabsState : TabsState :=
  { tabs := INITIAL_TABS, active := "⌂", counter := INITIAL_TABS.length + 1 }

/-- One key action.  `action_new_tab` appends `tab-{counter}`, focuses it
and increments the counter; `action_close_tab` removes the active tab only
when more than one tab exists.  Which remaining tab the widget framework
focuses after a removal is outside this repository; it is abstracted as
`pick`, a function of the remaining tabs. -/
def stepTab (pick : List String → String) (s : TabsState) : TabAction → TabsState
  | TabAction.newTab =>
      { tabs := s.tabs ++ [tabId s.counter], active := tabId s.counter,
        counter := s.counter + 1 }
  | TabAction.closeTab =>
      if s.tabs.length > 1 then
        { tabs := s.tabs.erase s.active, active := pick (s.tabs.erase s.active),
          counter := s.counter }
      else s

/-- Run a sequence of key actions. -/
def runTabs (pick : List String → String) : TabsState → List TabAction → TabsState
  | s, [] => s
  | s, a :: acts => runTabs pick (stepTab pick s a) acts

/-- The tab ids generated by the `action_new_tab` calls of a run, in order. -/
def genTabIds (pick : List String → String) :
    TabsState → List TabAction → List String
  | _, [] => []
  | s, TabAction.newTab :: acts =>
      tabId s.counter :: genTabIds pick (stepTab pick s TabAction.newTab) acts
  | s, TabAction.closeTab :: acts =>
      genTabIds pick (stepTab pick s TabAction.closeTab) acts

theorem stepTab_closeTab_counter (pick : List String → String) (s : TabsState) :
    (stepTab pick s TabAction.closeTab).counter = s.counter := by
  rw [stepTab]
  split <;> rfl

theorem genTabIds_counter_le (pick : List String → String)
    (acts : List TabAction) (s : TabsState) (x : String)
    (hx : x ∈ genTabIds pick s acts) : ∃ m, s.counter ≤ m ∧ x = tabId m := by
  induction acts generalizing s with
  | nil => simp [genTabIds] at hx
  | cons a acts ih =>
      cases a with
      | newTab =>
          rw [genTabIds] at hx
          rcases List.mem_cons.mp hx with h1 | h1
          · exact ⟨s.counter, Nat.le_refl _, h1⟩
          · obtain ⟨m, hm, rfl⟩ := ih _ h1
            exact ⟨m, Nat.le_of_succ_le hm, rfl⟩
      | closeTab =>
          rw [genTabIds] at hx
          obtain ⟨m, hm, rfl⟩ := ih _ hx
          rw [stepTab_closeTab_counter] at hm
          exact ⟨m, hm, rfl⟩

theorem genTabIds_nodup (pick : List String → String)
    (acts : List TabAction) (s : TabsState) : (genTabIds pick s acts).Nodup := by
  induction acts generalizing s with
  | nil => exact List.nodup_nil
  | cons a acts ih =>
      cases a with
      | newTab =>
          rw [genTabIds]
          refine List.nodup_cons.mpr ⟨?_, ih _⟩
          intro hmem
          obtain ⟨m, hm, heq⟩ := genTabIds_counter_le pick acts _ _ hmem
          have : s.counter = m := tabId_injective heq
          subst this
          exact absurd hm (by simp [stepTab])
      | closeTab =>
          rw [genTabIds]
          exact ih _

theorem runTabs_tabs_ne_nil (pick : List String → String)
    (acts : List TabAction) (s : TabsState) (hs : 1 ≤ s.tabs.length) :
    1 ≤ (runTabs pick s acts).tabs.length := by
  induction acts generalizing s with
  | nil => exact hs
  | cons a acts ih =>
      rw [runTabs]
      refine ih _ ?_
      cases a with
      | newTab => simp [stepTab]
      | closeTab =>
          rw [stepTab]
          split
          · case isTrue hgt =>
              by_cases hmem : s.active ∈ s.tabs
              · simp only [List.length_erase_of_mem hmem]
                omega
              · rw [List.erase_of_not_mem hmem]
                exact hs
          · exact hs

/-! ## CredentialVault (spec §4.2)

No code in this repository implements the vault; passwords are kept in
plain strings.  The component is modelled from the spec so its contract
can be analysed. -/

/-- Modelled from the spec: `CredentialVault.seal(plaintext) -> encrypted blob` of
CredentialVault (§4.2), which the repository does not implement.  The
plaintext is a bit string; the blob carries the payload together with an
integrity tag (modelled as a second copy of the payload), making the
scheme authenticated as §4.2 requires. -/
def CredentialVault.seal (pt : List Bool) : List Bool := pt ++ pt

/-- Modelled from the spec: `CredentialVault.unseal(blob) -> plaintext|DecryptionError`
of CredentialVault (§4.2); `none` is `DecryptionError`.  The integrity
check compares payload and tag. -/
def CredentialVault.unseal (blob : List Bool) : Option (List Bool) :=
  if blob.length % 2 = 0 ∧
      blob.take (blob.length / 2) = blob.drop (blob.length / 2)
  then some (blob.take (blob.length / 2)) else none

/-- Flip bit `i` of a blob (out-of-range indices flip nothing). -/
def flipBit (b : List Bool) (i : Nat) : List Bool :=
  b.set i (!(b.getD i false))

theorem unseal_seal (pt : List Bool) : CredentialVault.unseal (CredentialVault.seal pt) = some pt := by
  rw [CredentialVault.seal, CredentialVault.unseal]
  have h1 : (pt ++ pt).length = pt.length + pt.length := List.length_append pt pt
  rw [h1]
  have h3 : (pt.length + pt.length) / 2 = pt.length := by omega
  rw [h3, List.take_left, List.drop_left, if_pos ⟨by omega, rfl⟩]

theorem getD_eq_getElem_of_lt (l : List Bool) (i : Nat) (h : i < l.length) :
    l.getD i false = l.get ⟨i, h⟩ := by
  rw [List.getD_eq_getElem?_getD, List.getElem?_eq_getElem h]
  rfl

theorem set_not_getElem_ne (l : List Bool) (i : Nat) (h : i < l.length) :
    l.set i (!(l.get ⟨i, h⟩)) ≠ l := by
  intro heq
  have h3 : (l.set i (!(l.get ⟨i, h⟩)))[i]? = some (!(l.get ⟨i, h⟩)) :=
    List.getElem?_set_self h
  rw [heq, List.getElem?_eq_getElem h] at h3
  injection h3 with h3
  rw [List.get_eq_getElem] at h3
  exact absurd h3.symm (by simp)

theorem unseal_flipBit_seal (pt : List Bool) (i : Nat)
    (hi : i < (CredentialVault.seal pt).length) : CredentialVault.unseal (flipBit (CredentialVault.seal pt) i) = none := by
  rw [CredentialVault.seal, List.length_append] at hi
  by_cases hiL : i < pt.length
  · have hget : (pt ++ pt).getD i false = pt.get ⟨i, hiL⟩ := by
      rw [getD_eq_getElem_of_lt (pt ++ pt) i (by rw [List.length_append]; omega)]
      simp [List.get_eq_getElem, List.getElem_append_left hiL]
    rw [CredentialVault.seal, flipBit, hget, List.set_append_left _ _ hiL, CredentialVault.unseal]
    have hlen1 : (pt.set i (!(pt.get ⟨i, hiL⟩))).length = pt.length :=
      List.length_set pt i _
    have hlen : ((pt.set i (!(pt.get ⟨i, hiL⟩))) ++ pt).length
        = pt.length + pt.length := by
      rw [List.length_append, hlen1]
    rw [hlen]
    have hdiv : (pt.length + pt.length) / 2 = pt.length := by omega
    rw [hdiv, List.take_left' hlen1, List.drop_left' hlen1]
    refine if_neg ?_
    rintro ⟨-, h2⟩
    exact set_not_getElem_ne pt i hiL h2
  · have hle : pt.length ≤ i := Nat.le_of_not_lt hiL
    have hj : i - pt.length < pt.length := by omega
    have hget : (pt ++ pt).getD i false = pt.get ⟨i - pt.length, hj⟩ := by
      rw [getD_eq_getElem_of_lt (pt ++ pt) i (by rw [List.length_append]; omega)]
      simp [List.get_eq_getElem, List.getElem_append_right hle]
    rw [CredentialVault.seal, flipBit, hget, List.set_append_right _ _ hle, CredentialVault.unseal]
    have hlen1 : (pt.set (i - pt.length) (!(pt.get ⟨i - pt.length, hj⟩))).length
        = pt.length := List.length_set pt _ _
    have hlen : (pt ++ pt.set (i - pt.length) (!(pt.get ⟨i - pt.length, hj⟩))).length
        = pt.length + pt.length := by
      rw [List.length_append, hlen1]
    rw [hlen]
    have hdiv : (pt.length + pt.length) / 2 = pt.length := by omega
    rw [hdiv, List.take_left, List.drop_left]
    refine if_neg ?_
    rintro ⟨-, h2⟩
    exact set_not_getElem_ne pt (i - pt.length) hj h2.symm

/-- The tamper-rejection half of the claim as stated in the spec: `CredentialVault.unseal`
rejects every blob that differs from a sealed blob in at least one bit
(bit flips preserve length, so such a blob has the length of the sealed blob). -/
def tamperDetectionAsStated : Prop :=
  ∀ pt blob : List Bool,
    blob.length = (CredentialVault.seal pt).length → blob ≠ CredentialVault.seal pt → CredentialVault.unseal blob = none

/-! ## Statements of the spec claims -/

/-- The port half of claim C2 as the spec states it: the stored port
field is the decimal rendering of an integer between 1 and 65535. -/
def portInRange (rec : ConnRecord) : Prop :=
  ∃ n : Nat, 1 ≤ n ∧ n ≤ 65535 ∧ dictLookup rec "port" = some (natDecimalRepr n)

/-- Claim C6 as the spec states it (§4.1, `get(id) -> profile|NotFound`):
retrieving an absent identifier reports NotFound. -/
def getReportsNotFoundAsStated : Prop :=
  ∀ (s : ConnStore) (i : Nat), dictLookup s i = none →
    editDispatch s (some (TreeCursor.node i)) = EditDispatch.reportNotFound

/-- Example records used to instantiate the claim theorems. -/
def exRecA : ConnRecord := mkConnDict "10.0.0.5" "22" "db1" "prod" "s3cret"

/-- A second example record. -/
def exRecB : ConnRecord := mkConnDict "10.0.0.6" "23" "db2" "prod" "hunter2"

/-- Claim C1: after any finite sequence of add/edit/remove store mutations
run from the empty `self.connections` of `PyxTerm.__init__`, looking up an
identifier returns exactly the record written by the last mutation of that
identifier — `some rec` if the last mutation wrote `rec`, absence if it
removed the identifier or if no mutation touched it. -/
theorem connections_lookup_last_mutation (ops : List ConnOp) (s1 : ConnStore)
    (i : Nat) (h : applyConnOps [] ops = some s1) :
    dictLookup s1 i = (lastWrite ops i).getD none :=
  lookup_applyConnOps ops [] s1 i h List.nodup_nil

/-- Witness for C1: add id 1, edit id 1, add id 2, remove id 2; the lookup
of id 1 afterwards is the edited record, as `lastWrite` prescribes. -/
theorem connections_lookup_last_mutation_witness :
    applyConnOps [] [ConnOp.add 1 "10.0.0.5" "22" "db1" "prod" "s3cret",
        ConnOp.edit 1 "10.0.0.5" "2222" "db1b" "prod" "s3cret",
        ConnOp.add 2 "10.0.0.6" "23" "db2" "prod" "hunter2", ConnOp.remove 2]
      = some [(1, mkConnDict "10.0.0.5" "2222" "db1b" "prod" "s3cret")] ∧
    dictLookup [(1, mkConnDict "10.0.0.5" "2222" "db1b" "prod" "s3cret")] 1
      = (lastWrite [ConnOp.add 1 "10.0.0.5" "22" "db1" "prod" "s3cret",
          ConnOp.edit 1 "10.0.0.5" "2222" "db1b" "prod" "s3cret",
          ConnOp.add 2 "10.0.0.6" "23" "db2" "prod" "hunter2",
          ConnOp.remove 2] 1).getD none :=
  ⟨rfl, connections_lookup_last_mutation _ _ 1 rfl⟩

/-- Counterexample to claim C2 as stated: the code stores the port input
string with no validation, so an add with an empty port field produces a
stored record whose port is the decimal rendering of no integer at all. -/
theorem port_in_range_counterexample :
    applyConnOps [] [ConnOp.add 1 "10.0.0.5" "" "db1" "prod" "s3cret"]
      = some [(1, mkConnDict "10.0.0.5" "" "db1" "prod" "s3cret")] ∧
    ¬ portInRange (mkConnDict "10.0.0.5" "" "db1" "prod" "s3cret") := by
  refine ⟨rfl, ?_⟩
  rintro ⟨n, -, -, h3⟩
  have h4 : dictLookup (mkConnDict "10.0.0.5" "" "db1" "prod" "s3cret") "port"
      = some "" := rfl
  rw [h4] at h3
  injection h3 with h3
  exact natDecimalRepr_ne_empty n h3.symm

/-- Claim C2 amended: every record produced by the add and edit operations
stores under "port" exactly the raw string of the port input, with no
validation, and the record is stored verbatim. -/
theorem port_stored_verbatim (host port label group password : String)
    (s : ConnStore) (i : Nat) :
    dictLookup (mkConnDict host port label group password) "port" = some port ∧
    dictLookup (dictSet s i (mkConnDict host port label group password)) i
      = some (mkConnDict host port label group password) :=
  ⟨rfl, dictLookup_set_self s i _⟩

/-- Claim C3: every value in a store reachable from the empty
`self.connections` by add/edit/remove operations is a dict with exactly
the five fields host, port, label, group, password, in this order. -/
theorem connections_record_shape (ops : List ConnOp) (s1 : ConnStore)
    (h : applyConnOps [] ops = some s1) :
    ∀ p ∈ s1, dictKeys p.2 = connFieldNames :=
  connFieldNames_applyConnOps ops [] s1 (by simp) h

/-- Witness for C3 at a one-add sequence and its single stored record. -/
theorem connections_record_shape_witness :
    dictKeys (mkConnDict "10.0.0.5" "22" "db1" "prod" "s3cret") = connFieldNames :=
  connections_record_shape [ConnOp.add 1 "10.0.0.5" "22" "db1" "prod" "s3cret"]
    [(1, mkConnDict "10.0.0.5" "22" "db1" "prod" "s3cret")] rfl
    (1, mkConnDict "10.0.0.5" "22" "db1" "prod" "s3cret") (List.mem_singleton.mpr rfl)

/-- Claim C4: a confirmed removal of the selected connection node deletes
exactly that identifier: afterwards its lookup is absent and every other
identifier keeps its lookup unchanged.  `(dictKeys s).Nodup` is the Python-dict
representation invariant of the association list. -/
theorem remove_connection_frame (s s1 : ConnStore) (i : Nat)
    (hnd : (dictKeys s).Nodup)
    (h : removeAction s (some (TreeCursor.node i)) true = some s1) :
    dictLookup s1 i = none ∧ ∀ j, j ≠ i → dictLookup s1 j = dictLookup s j := by
  have h2 : dictDel s i = some s1 := h
  exact ⟨dictLookup_del_self s s1 i h2 hnd,
    fun j hj => dictLookup_del_other s s1 i j h2 hj⟩

/-- Witness for C4: removing id 1 from a two-entry store empties its
binding and leaves the binding of id 2 unchanged. -/
theorem remove_connection_frame_witness :
    dictLookup [(2, exRecB)] 1 = none ∧
    dictLookup [(2, exRecB)] 2 = dictLookup [(1, exRecA), (2, exRecB)] 2 :=
  ⟨(remove_connection_frame [(1, exRecA), (2, exRecB)] [(2, exRecB)] 1
      (by decide) rfl).1,
   (remove_connection_frame [(1, exRecA), (2, exRecB)] [(2, exRecB)] 1
      (by decide) rfl).2 2 (by decide)⟩

/-- Claim C5: editing the selected connection stores the new record under
the same identifier and leaves the set (indeed the sequence) of identifiers
of `self.connections` unchanged. -/
theorem edit_connection_preserves_id (s : ConnStore) (i : Nat)
    (host port label group password : String) (hi : i ∈ dictKeys s) :
    dictLookup (editAction s (some (TreeCursor.node i))
        (some (mkConnDict host port label group password))) i
      = some (mkConnDict host port label group password) ∧
    dictKeys (editAction s (some (TreeCursor.node i))
        (some (mkConnDict host port label group password))) = dictKeys s := by
  constructor
  · show dictLookup (dictSet s i (mkConnDict host port label group password)) i
      = some (mkConnDict host port label group password)
    exact dictLookup_set_self s i _
  · show dictKeys (dictSet s i (mkConnDict host port label group password))
      = dictKeys s
    exact dictKeys_set_mem s i _ hi

/-- Witness for C5: editing id 1 in a one-entry store keeps the key list
`[1]` and stores the new record under 1. -/
theorem edit_connection_preserves_id_witness :
    dictLookup (editAction [(1, exRecA)] (some (TreeCursor.node 1))
        (some (mkConnDict "10.0.0.5" "2222" "db1b" "prod" "s3cret"))) 1
      = some (mkConnDict "10.0.0.5" "2222" "db1b" "prod" "s3cret") ∧
    dictKeys (editAction [(1, exRecA)] (some (TreeCursor.node 1))
        (some (mkConnDict "10.0.0.5" "2222" "db1b" "prod" "s3cret")))
      = dictKeys [(1, exRecA)] :=
  edit_connection_preserves_id [(1, exRecA)] 1 "10.0.0.5" "2222" "db1b" "prod"
    "s3cret" (by decide)

/-- Counterexample to claim C6 as stated: on an absent identifier the edit
flow does not report NotFound; it opens the modal prefilled with the
`dict.get` default `{}`. -/
theorem get_absent_counterexample :
    dictLookup ([] : ConnStore) 1 = none ∧
    editDispatch [] (some (TreeCursor.node 1)) = EditDispatch.openModal [] ∧
    ¬ getReportsNotFoundAsStated := by
  refine ⟨rfl, rfl, fun h => ?_⟩
  have h2 := h [] 1 rfl
  exact EditDispatch.noConfusion
    ((rfl : editDispatch [] (some (TreeCursor.node 1))
        = EditDispatch.openModal []) ▸ h2)

/-- Claim C6 amended: retrieving an absent identifier yields the empty
record (the `self.connections.get(selected_node.id, {})` default) and the
edit flow proceeds by opening the modal with that empty prefill; no
NotFound is reported. -/
theorem get_absent_returns_empty (s : ConnStore) (i : Nat)
    (h : dictLookup s i = none) :
    editDispatch s (some (TreeCursor.node i)) = EditDispatch.openModal [] := by
  simp [editDispatch, h]

/-- Witness for amended C6 at the empty store and identifier 0. -/
theorem get_absent_returns_empty_witness :
    editDispatch [] (some (TreeCursor.node 0)) = EditDispatch.openModal [] :=
  get_absent_returns_empty [] 0 rfl

/-- Counterexample to claim C7 as stated: flipping the two bits of
`seal [false]` yields `[true, true] = seal [true]`, which `unseal` happily
decrypts to the plaintext `[true]` — a blob with at least one flipped bit
that does not produce DecryptionError. -/
theorem tamper_detection_counterexample :
    ([true, true] : List Bool).length = (CredentialVault.seal [false]).length ∧
    [true, true] ≠ CredentialVault.seal [false] ∧
    CredentialVault.unseal [true, true] = some [true] ∧
    ¬ tamperDetectionAsStated := by
  refine ⟨by decide, by decide, by decide, fun h => ?_⟩
  exact absurd (h [false] [true, true] (by decide) (by decide)) (by decide)

/-- Claim C7 amended: `unseal` inverts `seal` on every plaintext, and a
blob obtained from a sealed blob by flipping exactly one bit always
unseals to DecryptionError (flipping several bits can reach another valid
sealed blob, so the unrestricted claim is false). -/
theorem seal_unseal_roundtrip_single_flip (pt : List Bool) (i : Nat)
    (hi : i < (CredentialVault.seal pt).length) :
    CredentialVault.unseal (CredentialVault.seal pt) = some pt ∧
    CredentialVault.unseal (flipBit (CredentialVault.seal pt) i) = none :=
  ⟨unseal_seal pt, unseal_flipBit_seal pt i hi⟩

/-- Witness for amended C7 at plaintext `[true]`, flipped bit 0. -/
theorem seal_unseal_roundtrip_single_flip_witness :
    CredentialVault.unseal (CredentialVault.seal [true]) = some [true] ∧
    CredentialVault.unseal (flipBit (CredentialVault.seal [true]) 0) = none :=
  seal_unseal_roundtrip_single_flip [true] 0 (by decide)

/-- Claim C8: `action_close_tab` is the identity when exactly one tab
exists, and from the initial single home tab every sequence of new-tab and
close-tab actions leaves at least one tab. -/
theorem close_tab_keeps_a_tab (pick : List String → String)
    (acts : List TabAction) :
    (∀ s : TabsState, s.tabs.length = 1 →
      stepTab pick s TabAction.closeTab = s) ∧
    1 ≤ (runTabs pick initTabsState acts).tabs.length := by
  constructor
  · intro s hs
    rw [stepTab, if_neg (by omega)]
  · exact runTabs_tabs_ne_nil pick acts initTabsState (by decide)

/-- Witness for C8: closing with the single home tab changes nothing, and
a new-tab/close-tab run keeps a tab. -/
theorem close_tab_keeps_a_tab_witness :
    stepTab (fun _ => "⌂") initTabsState TabAction.closeTab = initTabsState ∧
    1 ≤ (runTabs (fun _ => "⌂") initTabsState
        [TabAction.newTab, TabAction.closeTab]).tabs.length :=
  ⟨(close_tab_keeps_a_tab (fun _ => "⌂") []).1 initTabsState rfl,
   (close_tab_keeps_a_tab (fun _ => "⌂")
      [TabAction.newTab, TabAction.closeTab]).2⟩

/-- Claim C9: the tab ids generated by the `action_new_tab` invocations of
any run are pairwise distinct, and the counter strictly increases (by one)
on each invocation. -/
theorem new_tab_ids_distinct (pick : List String → String)
    (acts : List TabAction) :
    (genTabIds pick initTabsState acts).Nodup ∧
    ∀ s : TabsState, (stepTab pick s TabAction.newTab).counter = s.counter + 1 :=
  ⟨genTabIds_nodup pick acts initTabsState, fun _ => rfl⟩

/-- Claim C10: with no tree node selected, or with the root selected, the
edit and remove menu actions leave `self.connections` unchanged for every
store, modal result and confirmation. -/
theorem no_selection_leaves_connections (s : ConnStore)
    (result : Option ConnRecord) (confirm : Bool) :
    editAction s none result = s ∧
    editAction s (some TreeCursor.root) result = s ∧
    removeAction s none confirm = some s ∧
    removeAction s (some TreeCursor.root) confirm = some s :=
  ⟨rfl, rfl, rfl, rfl⟩

end Mitraxterm
